import Mathlib

/-!
Verification of `qutebrowser/misc/editor.py` (class `ExternalEditor`).

Strings are modelled as `List Char` (`Str`).  The mutable session object
together with the parts of its environment that the claims observe
(the on-disk files, the `editing_finished` emissions, the number of
`message.error` reports) is modelled as a `World` record, and every
method of the class becomes a pure transition on `World` that also
returns the Python exception it raises, if any (`Res`).

External effects whose outcome the code merely reacts to (creation of
the temporary file, the exit code / exit status delivered by Qt) are
inputs of the corresponding transitions.
-/

namespace EditorSpec

abbrev Str := List Char

/-- The character `{`. -/
def lbrace : Char := '\x7b'

/-- The character `}`. -/
def rbrace : Char := '\x7d'

/-! ### Caret arithmetic (editor.py lines 148-149)

`line = text[:caret_position].count('\n') + 1`
`column = caret_position - text[:caret_position].rfind('\n')`
-/

/-- `s.count(ch)` of Python for a single character: number of occurrences. -/
def countChar (ch : Char) : Str → Nat
  | [] => 0
  | c :: t => (if c = ch then 1 else 0) + countChar ch t

/-- `s.rfind(ch)` of Python for a single character: the highest index at
which `ch` occurs in `s`, and `-1` if it does not occur. -/
def rfind (ch : Char) : Str → Int
  | [] => -1
  | c :: t =>
    if 0 ≤ rfind ch t then rfind ch t + 1
    else if c = ch then 0 else -1

/-- `line` as computed by `ExternalEditor.edit` (editor.py line 148);
Python's slice `text[:caret_position]` clamps, as `List.take` does. -/
def caretLine (text : Str) (caret : Nat) : Int :=
  (countChar '\n' (text.take caret) : Int) + 1

/-- `column` as computed by `ExternalEditor.edit` (editor.py line 149). -/
def caretCol (text : Str) (caret : Nat) : Int :=
  (caret : Int) - rfind '\n' (text.take caret)

/-! ### Decimal rendering (`str(line)` etc.) -/

/-- Decimal digits of `n`, most significant first; `fuel`-structured
recursion (`fuel > n` suffices, since `n / 10 < n` for `n ≥ 10`). -/
def natStrF : Nat → Nat → Str
  | 0, _ => []
  | fuel + 1, n =>
    if n < 10 then [Nat.digitChar n]
    else natStrF fuel (n / 10) ++ [Nat.digitChar (n % 10)]

/-- Python `str(n)` for a natural number. -/
def natStr (n : Nat) : Str := natStrF (n + 1) n

/-- Python `str(i)` for an integer. -/
def intStr (i : Int) : Str :=
  if i < 0 then '-' :: natStr i.natAbs else natStr i.toNat

/-! ### `str.replace` (editor.py lines 186-192)

Python's `str.replace(pattern, repl)` replaces every non-overlapping
occurrence of `pattern`, scanning left to right, and does not rescan the
replacement text.  `fuel`-structured recursion with `fuel = s.length`. -/

def replaceAllF : Nat → Str → Str → Str → Str
  | 0, _, _, s => s
  | _ + 1, _, _, [] => []
  | fuel + 1, p, r, c :: t =>
    if p ≠ [] ∧ p <+: (c :: t) then
      r ++ replaceAllF fuel p r (t.drop (p.length - 1))
    else
      c :: replaceAllF fuel p r t

/-- `s.replace(p, r)` of Python (for non-empty `p`; the six placeholder
patterns of editor.py are all non-empty). -/
def replaceAll (p r s : Str) : Str := replaceAllF s.length p r s

/-! ### The six placeholders (editor.py lines 186-192) -/

/-- The text between the braces of the i-th placeholder, in the order the
source replaces them: `{}`, `{file}`, `{line}`, `{line0}`, `{column}`,
`{column0}`. -/
def tokenBody : Fin 6 → Str
  | 0 => []
  | 1 => "file".toList
  | 2 => "line".toList
  | 3 => "line0".toList
  | 4 => "column".toList
  | 5 => "column0".toList

/-- The i-th placeholder token itself. -/
def tokenStr (i : Fin 6) : Str := lbrace :: (tokenBody i ++ [rbrace])

/-- The replacement value of the i-th placeholder: the filename for `{}`
and `{file}`, `str(line)`, `str(line-1)`, `str(column)`, `str(column-1)`
for the rest, exactly as in `_sub_placeholder`. -/
def vals (fn : Str) (line col : Int) : Fin 6 → Str
  | 0 => fn
  | 1 => fn
  | 2 => intStr line
  | 3 => intStr (line - 1)
  | 4 => intStr col
  | 5 => intStr (col - 1)

/-- `ExternalEditor._sub_placeholder`: the chain of six `str.replace`
calls of editor.py lines 186-192, in the source's order. -/
def sub_placeholder (fn arg : Str) (line col : Int) : Str :=
  replaceAll (tokenStr 5) (intStr (col - 1))
    (replaceAll (tokenStr 4) (intStr col)
      (replaceAll (tokenStr 3) (intStr (line - 1))
        (replaceAll (tokenStr 2) (intStr line)
          (replaceAll (tokenStr 1) fn
            (replaceAll (tokenStr 0) fn arg)))))

/-- One replacement step: replace every occurrence of the i-th placeholder
by its value. -/
def applyTok (fn : Str) (line col : Int) (s : Str) (i : Fin 6) : Str :=
  replaceAll (tokenStr i) (vals fn line col i) s

/-- Placeholder substitution performed in an arbitrary order `order`
of the six placeholders (the code uses `[0,1,2,3,4,5]`). -/
def subInOrder (fn : Str) (line col : Int) (order : List (Fin 6)) (arg : Str) : Str :=
  order.foldl (applyTok fn line col) arg

/-! ### Well-formed argument templates

A template is viewed as a sequence of chunks: literal text containing no
opening brace, and placeholder tokens.  `flatten` renders the chunks back
into the argument string. -/

inductive Chunk where
  | lit (s : Str)
  | tok (i : Fin 6)
deriving DecidableEq

def chunkStr : Chunk → Str
  | .lit s => s
  | .tok i => tokenStr i

def flatten : List Chunk → Str
  | [] => []
  | c :: cs => chunkStr c ++ flatten cs

/-- A literal chunk is acceptable when it is free of opening braces. -/
def chunkOK : Chunk → Prop
  | .lit s => lbrace ∉ s
  | .tok _ => True

instance decChunkOK : (ch : Chunk) → Decidable (chunkOK ch)
  | .lit s => inferInstanceAs (Decidable (lbrace ∉ s))
  | .tok _ => inferInstanceAs (Decidable True)

/-- Every literal chunk is free of opening braces, so every `{` of the
rendered argument starts a placeholder token. -/
def ChunksOK (cs : List Chunk) : Prop := ∀ ch ∈ cs, chunkOK ch

instance decChunksOK (cs : List Chunk) : Decidable (ChunksOK cs) :=
  inferInstanceAs (Decidable (∀ ch ∈ cs, chunkOK ch))

/-- Substitution of one placeholder at the chunk level. -/
def substTokChunk (k : Fin 6) (v : Str) : Chunk → Chunk
  | .lit s => .lit s
  | .tok i => if i = k then .lit v else .tok i

def substTok (k : Fin 6) (v : Str) (cs : List Chunk) : List Chunk :=
  cs.map (substTokChunk k v)

/-- Chunk-level substitution of the placeholders of `order`, in order. -/
def substSeq (fn : Str) (line col : Int) (order : List (Fin 6))
    (cs : List Chunk) : List Chunk :=
  order.foldl (fun l k => substTok k (vals fn line col k) l) cs

/-- Chunk-level substitution sequence applied to a single chunk. -/
def chunkSeq (fn : Str) (line col : Int) (order : List (Fin 6)) (ch : Chunk) : Chunk :=
  order.foldl (fun c k => substTokChunk k (vals fn line col k) c) ch

/-- Simultaneous substitution of all six placeholders. -/
def substAllChunk (fn : Str) (line col : Int) : Chunk → Chunk
  | .lit s => .lit s
  | .tok i => .lit (vals fn line col i)

def substAll (fn : Str) (line col : Int) (cs : List Chunk) : List Chunk :=
  cs.map (substAllChunk fn line col)

/-! ### The session state machine (class `ExternalEditor`)

`World` holds the three attributes of the Python object together with the
observable environment: the files on disk (an association list
name ↦ contents), the list of `editing_finished` emissions so far, the
number of `message.error` reports, and whether a child process was
started this cycle (plus the line/column it was started with). -/

inductive QExitStatus where
  | NormalExit
  | CrashExit
deriving DecidableEq

inductive PyError where
  | valueError
  | assertionError
  | typeError
deriving DecidableEq

structure World where
  filename : Option Str
  remove_file : Option Bool
  procStarted : Bool
  started : Option (Int × Int)
  fs : List (Str × Str)
  emitted : List Str
  errors : Nat
deriving DecidableEq

/-- The result of running a method: the new world, plus the Python
exception propagating out of it, if any. -/
structure Res where
  w : World
  err : Option PyError
deriving DecidableEq

/-- The state set up by `ExternalEditor.__init__`, in an environment with
no relevant files, no emissions and no errors. -/
def initWorld : World :=
  { filename := none, remove_file := none, procStarted := false,
    started := none, fs := [], emitted := [], errors := 0 }

/-- First-match lookup of a file's contents. -/
def fsGet : List (Str × Str) → Str → Option Str
  | [], _ => none
  | (m, c) :: t, n => if m = n then some c else fsGet t n

/-- Remove all entries of a file name (`os.remove`). -/
def fsDel : List (Str × Str) → Str → List (Str × Str)
  | [], _ => []
  | (m, c) :: t, n => if m = n then fsDel t n else (m, c) :: fsDel t n

/-- Create/overwrite a file. -/
def fsSet (fs : List (Str × Str)) (n c : Str) : List (Str × Str) :=
  (n, c) :: fsDel fs n

/-- `ExternalEditor._cleanup` (editor.py lines 52-65).  `st` is the value
of `self._proc.exit_status()`.  The leading
`assert self._remove_file is not None` raises `AssertionError` when
`_remove_file` was never set; otherwise, if no file was created or the
session does not own it, nothing happens; otherwise the file is deleted
unless the process crashed, and a missing file (`OSError` from
`os.remove`) is reported via `message.error` and is non-fatal. -/
def cleanup (w : World) (st : QExitStatus) : Res :=
  match w.remove_file, w.filename with
  | none, _ => ⟨w, some PyError.assertionError⟩
  | some _, none => ⟨w, none⟩
  | some false, some _ => ⟨w, none⟩
  | some true, some f =>
    if st = QExitStatus.CrashExit then ⟨w, none⟩
    else if fsGet w.fs f = none then ⟨{ w with errors := w.errors + 1 }, none⟩
    else ⟨{ w with fs := fsDel w.fs f }, none⟩

/-- `ExternalEditor.on_proc_closed` (editor.py lines 67-93).  On abnormal
termination it returns at once (cleanup is left to `on_proc_error`);
otherwise the `try`/`finally` body runs: a non-zero exit code skips the
read-back, a missing file is an `OSError` reported via `message.error`,
and on success the contents are emitted via `editing_finished`; in every
one of these paths the `finally` block runs `_cleanup`.  Opening
`self._filename` when it is `None` would raise `TypeError` after the
`finally` block ran. -/
def on_proc_closed (exitcode : Int) (st : QExitStatus) (w : World) : Res :=
  if st ≠ QExitStatus.NormalExit then ⟨w, none⟩
  else if exitcode ≠ 0 then cleanup w st
  else
    match w.filename with
    | none =>
      let c := cleanup w st
      ⟨c.w, some (c.err.getD PyError.typeError)⟩
    | some f =>
      match fsGet w.fs f with
      | none => cleanup { w with errors := w.errors + 1 } st
      | some content => cleanup { w with emitted := w.emitted ++ [content] } st

/-- `ExternalEditor.on_proc_error` (editor.py lines 95-97): runs
`_cleanup`; `st` is what `self._proc.exit_status()` reports. -/
def on_proc_error (st : QExitStatus) (w : World) : Res := cleanup w st

/-- Outcome of the `tempfile.NamedTemporaryFile(delete=False)` block of
`ExternalEditor.edit`.  `ok name`: the file `name` was created and
`text` written into it.  `createFail`: creating the file raised
`OSError`, nothing is on disk.  `writeFail name`: the file was created
but writing raised `OSError` before `self._filename = fobj.name` was
reached; `delete=False`, so the file stays on disk.  `closeFail name`:
`self._filename` was assigned and then closing the file on `with`-exit
raised `OSError`; the file stays on disk. -/
inductive TempOutcome where
  | ok (name : Str)
  | createFail
  | writeFail (name : Str)
  | closeFail (name : Str)

/-- `ExternalEditor.edit` (editor.py lines 99-150) composed with
`_start_editor`.  Raises `ValueError` when an edit is in progress; on an
`OSError` from the temp-file block it reports the error and returns;
otherwise it sets `_remove_file = True`, computes line and column from
the caret and starts the editor process.  (The partially written
contents in the `writeFail`/`closeFail` cases are modelled as empty.) -/
def edit (text : Str) (caret : Nat) (tf : TempOutcome) (w : World) : Res :=
  if w.filename ≠ none then ⟨w, some PyError.valueError⟩
  else
    match tf with
    | .createFail => ⟨{ w with errors := w.errors + 1 }, none⟩
    | .writeFail name =>
      ⟨{ w with fs := fsSet w.fs name [], errors := w.errors + 1 }, none⟩
    | .closeFail name =>
      ⟨{ w with
          fs := fsSet w.fs name []
          filename := some name
          errors := w.errors + 1 }, none⟩
    | .ok name =>
      ⟨{ w with
          fs := fsSet w.fs name text
          filename := some name
          remove_file := some true
          procStarted := true
          started := some (caretLine text caret, caretCol text caret) }, none⟩

/-- `ExternalEditor.edit_file` (editor.py lines 152-156): note that,
unlike `edit`, it performs no in-progress check. -/
def edit_file (f : Str) (w : World) : Res :=
  ⟨{ w with
      filename := some f
      remove_file := some false
      procStarted := true
      started := some (1, 1) }, none⟩

/-! ### Concrete data for examples, witnesses and counterexamples -/

/-- The example text of the spec: `"aaa\nbbbbb"`. -/
def exText : Str := "aaa\nbbbbb".toList

/-- The example template of the spec: `"{file}:{line}:{column}"`. -/
def exTemplate : Str := tokenStr 1 ++ ':' :: tokenStr 2 ++ ':' :: tokenStr 4

/-- Chunk decomposition of `exTemplate`. -/
def exChunks : List Chunk :=
  [Chunk.tok 1, Chunk.lit [':'], Chunk.tok 2, Chunk.lit [':'], Chunk.tok 4]

/-- A filename that itself is a placeholder token (`"{line}"`). -/
def cexFn : Str := tokenStr 2

/-- The argument template `"{}"`. -/
def cexArg : Str := tokenStr 0

/-- A world in the middle of an edit cycle: `_filename` is set. -/
def busyWorld : World :=
  { initWorld with
      filename := some "/tmp/a".toList
      remove_file := some true
      fs := [("/tmp/a".toList, "aaa".toList)] }

/-! ## Theorems -/

/-! ### Properties of `rfind` -/

theorem rfind_ge_neg_one (ch : Char) : ∀ s : Str, -1 ≤ rfind ch s
  | [] => le_refl _
  | c :: t => by
    have ih := rfind_ge_neg_one ch t
    simp only [rfind]
    split
    · omega
    · split <;> omega

theorem rfind_lt_length (ch : Char) : ∀ s : Str, rfind ch s < (s.length : Int)
  | [] => by simp [rfind]
  | c :: t => by
    have ih := rfind_lt_length ch t
    simp only [rfind, List.length_cons]
    split
    · push_cast
      omega
    · split <;> (push_cast; omega)

theorem rfind_eq_neg_one_iff (ch : Char) : ∀ s : Str, rfind ch s = -1 ↔ ch ∉ s
  | [] => by simp [rfind]
  | c :: t => by
    have ih := rfind_eq_neg_one_iff ch t
    have hge := rfind_ge_neg_one ch t
    simp only [rfind, List.mem_cons]
    by_cases h0 : 0 ≤ rfind ch t
    · rw [if_pos h0]
      constructor
      · intro h
        omega
      · intro h
        exfalso
        have : rfind ch t = -1 := ih.mpr (fun hm => h (Or.inr hm))
        omega
    · rw [if_neg h0]
      have ht : rfind ch t = -1 := by omega
      by_cases hc : c = ch
      · rw [if_pos hc]
        constructor
        · intro h
          omega
        · intro h
          exact absurd (Or.inl hc.symm) h
      · rw [if_neg hc]
        constructor
        · intro _ h
          rcases h with h | h
          · exact hc (h.symm)
          · exact (ih.mp ht) h
        · intro _
          rfl

theorem rfind_last (ch : Char) : ∀ (s : Str) (i : Nat), rfind ch s = (i : Int) →
    s.get? i = some ch ∧ ∀ j : Nat, i < j → s.get? j ≠ some ch
  | [], i, h => by
    simp only [rfind] at h
    exact absurd h (by omega)
  | c :: t, i, h => by
    have hge := rfind_ge_neg_one ch t
    simp only [rfind] at h
    by_cases h0 : 0 ≤ rfind ch t
    · rw [if_pos h0] at h
      obtain ⟨k, rfl⟩ : ∃ k, i = k + 1 := ⟨i - 1, by omega⟩
      have hk : rfind ch t = (k : Int) := by push_cast at h; omega
      obtain ⟨h1, h2⟩ := rfind_last ch t k hk
      refine ⟨by simpa using h1, ?_⟩
      intro j hj
      obtain ⟨m, rfl⟩ : ∃ m, j = m + 1 := ⟨j - 1, by omega⟩
      simpa using h2 m (by omega)
    · rw [if_neg h0] at h
      have ht : rfind ch t = -1 := by omega
      by_cases hc : c = ch
      · rw [if_pos hc] at h
        have hi : i = 0 := by omega
        subst hi
        refine ⟨by simp [hc], ?_⟩
        intro j hj
        obtain ⟨m, rfl⟩ : ∃ m, j = m + 1 := ⟨j - 1, by omega⟩
        simp only [List.get?_cons_succ]
        intro hmem
        exact ((rfind_eq_neg_one_iff ch t).mp ht) (List.get?_mem hmem)
      · rw [if_neg hc] at h
        exact absurd h (by omega)

/-! ### Claims C1 and C10: caret position to line/column -/

/-- C1: for every text and caret position within the text, `edit` starts
the editor at `line = count of newlines in text[0:caret] + 1` and
`column = caret - rfind(newline, text[0:caret])` (with `rfind = -1` when
no newline precedes the caret, which is exactly when the prefix has no
newline, and otherwise the index of the last newline of the prefix);
both are at least 1; the example text `"aaa\nbbbbb"` with caret 6 gives
line 2, column 3. -/
theorem caret_line_column_correct (text : Str) (caret : Nat) (w : World) (name : Str)
    (hw : w.filename = none) (hc : caret ≤ text.length) :
    (edit text caret (TempOutcome.ok name) w).w.started
        = some (caretLine text caret, caretCol text caret)
    ∧ caretLine text caret = (countChar '\n' (text.take caret) : Int) + 1
    ∧ caretCol text caret = (caret : Int) - rfind '\n' (text.take caret)
    ∧ 1 ≤ caretLine text caret
    ∧ 1 ≤ caretCol text caret
    ∧ (rfind '\n' (text.take caret) = -1 ↔ '\n' ∉ text.take caret)
    ∧ (∀ i : Nat, rfind '\n' (text.take caret) = (i : Int) →
        (text.take caret).get? i = some '\n'
        ∧ ∀ j : Nat, i < j → (text.take caret).get? j ≠ some '\n')
    ∧ caretLine exText 6 = 2 ∧ caretCol exText 6 = 3 := by
  refine ⟨by simp [edit, hw], rfl, rfl, ?_, ?_,
    rfind_eq_neg_one_iff _ _, fun i h => rfind_last _ _ i h, by decide, by decide⟩
  · unfold caretLine
    omega
  · unfold caretCol
    have h1 := rfind_lt_length '\n' (text.take caret)
    have h2 : (text.take caret).length ≤ caret := by
      rw [List.length_take]
      omega
    omega

theorem caret_line_column_correct_witness :
    initWorld.filename = none ∧ 6 ≤ exText.length
    ∧ caretLine exText 6 = 2 ∧ caretCol exText 6 = 3 :=
  ⟨rfl, by decide,
    (caret_line_column_correct exText 6 initWorld ("/tmp/f".toList) rfl
      (by decide)).2.2.2.2.2.2.2⟩

/-- C10: a caret position beyond the end of the text does not make `edit`
fail; the Python slice clamps, so the line is computed as if the caret
were at the end of the text, while the column is the caret position minus
the index of the last newline of the whole text; text `"ab"` with caret 5
gives line 1, column 6. -/
theorem caret_beyond_length (text : Str) (caret : Nat) (w : World) (name : Str)
    (hw : w.filename = none) (hc : text.length < caret) :
    (edit text caret (TempOutcome.ok name) w).err = none
    ∧ (edit text caret (TempOutcome.ok name) w).w.started
        = some (caretLine text caret, caretCol text caret)
    ∧ caretLine text caret = (countChar '\n' text : Int) + 1
    ∧ caretCol text caret = (caret : Int) - rfind '\n' text
    ∧ caretLine ("ab".toList) 5 = 1 ∧ caretCol ("ab".toList) 5 = 6 := by
  have ht : text.take caret = text := List.take_of_length_le (le_of_lt hc)
  refine ⟨by simp [edit, hw], by simp [edit, hw], ?_, ?_, by decide, by decide⟩
  · unfold caretLine
    rw [ht]
  · unfold caretCol
    rw [ht]

theorem caret_beyond_length_witness :
    ("ab".toList : Str).length < 5
    ∧ caretLine ("ab".toList) 5 = 1 ∧ caretCol ("ab".toList) 5 = 6 :=
  ⟨by decide,
    (caret_beyond_length ("ab".toList) 5 initWorld ("/tmp/g".toList) rfl
      (by decide)).2.2.2.2⟩

/-! ### Filesystem helper lemmas -/

theorem fsGet_fsSet (fs : List (Str × Str)) (n c : Str) :
    fsGet (fsSet fs n c) n = some c := by
  simp [fsSet, fsGet]

theorem fsGet_fsDel (fs : List (Str × Str)) (n : Str) :
    fsGet (fsDel fs n) n = none := by
  induction fs with
  | nil => rfl
  | cons p t ih =>
    obtain ⟨m, c⟩ := p
    by_cases h : m = n
    · simp [fsDel, h, ih]
    · simp [fsDel, fsGet, h, ih]

/-! ### Claim C2: the in-progress guard -/

/-- C2 (amended): when an edit is in progress (`_filename` set), `edit`
fails fast with `ValueError` and leaves the whole session state
untouched; `edit_file`, however, performs no such check: it succeeds and
overwrites `_filename` and `_remove_file`. -/
theorem edit_guard_behavior :
    (∀ (text : Str) (caret : Nat) (tf : TempOutcome) (w : World),
      w.filename ≠ none → edit text caret tf w = ⟨w, some PyError.valueError⟩)
    ∧ (∀ (f : Str) (w : World),
      (edit_file f w).err = none
      ∧ (edit_file f w).w.filename = some f
      ∧ (edit_file f w).w.remove_file = some false) :=
  ⟨fun _ _ _ w h => by simp [edit, h], fun _ _ => ⟨rfl, rfl, rfl⟩⟩

theorem edit_guard_behavior_witness :
    busyWorld.filename ≠ none
    ∧ edit ("x".toList) 0 TempOutcome.createFail busyWorld
        = ⟨busyWorld, some PyError.valueError⟩ :=
  ⟨by decide,
    edit_guard_behavior.1 ("x".toList) 0 TempOutcome.createFail busyWorld (by decide)⟩

/-- C2 counterexample: with an edit already in progress (`busyWorld` has
`_filename = "/tmp/a"`), `edit_file` raises nothing and silently
overwrites the session's filename and remove-file flag, so the claim
that either public edit operation fails fast is false. -/
theorem edit_file_overwrites_cex :
    busyWorld.filename = some ("/tmp/a".toList)
    ∧ (edit_file ("/tmp/b".toList) busyWorld).err = none
    ∧ (edit_file ("/tmp/b".toList) busyWorld).w.filename = some ("/tmp/b".toList)
    ∧ (edit_file ("/tmp/b".toList) busyWorld).w.remove_file = some false := by
  decide

/-! ### Claim C4: round trip -/

/-- C4: starting from any state with no edit in progress, `edit T`
followed by a normal process exit with code zero that leaves the temp
file untouched raises nothing and emits `editing_finished` exactly once,
carrying exactly `T` (the empty text included, since the theorem
quantifies over every `T`). -/
theorem roundtrip_emits_text (T : Str) (caret : Nat) (name : Str) (w0 : World)
    (hw : w0.filename = none) :
    (edit T caret (TempOutcome.ok name) w0).err = none
    ∧ (on_proc_closed 0 QExitStatus.NormalExit
        (edit T caret (TempOutcome.ok name) w0).w).err = none
    ∧ (on_proc_closed 0 QExitStatus.NormalExit
        (edit T caret (TempOutcome.ok name) w0).w).w.emitted
      = w0.emitted ++ [T] := by
  simp [edit, hw, on_proc_closed, cleanup, fsGet_fsSet]

theorem roundtrip_emits_text_witness :
    initWorld.filename = none
    ∧ (on_proc_closed 0 QExitStatus.NormalExit
        (edit [] 0 (TempOutcome.ok ("/tmp/t".toList)) initWorld).w).w.emitted
      = initWorld.emitted ++ [[]] :=
  ⟨rfl, (roundtrip_emits_text [] 0 ("/tmp/t".toList) initWorld rfl).2.2⟩

/-! ### Claim C5: crash leaves the temp file -/

/-- C5: after `edit T`, an abnormal termination means `on_proc_closed`
returns immediately (no emission, no cleanup) and the cleanup performed
by `on_proc_error` sees a crashed process and skips the deletion, so the
temp file is still on disk with its contents and `editing_finished` was
never emitted. -/
theorem crash_preserves_tempfile (T : Str) (caret : Nat) (name : Str) (w0 : World)
    (ec : Int) (hw : w0.filename = none) :
    on_proc_closed ec QExitStatus.CrashExit (edit T caret (TempOutcome.ok name) w0).w
        = ⟨(edit T caret (TempOutcome.ok name) w0).w, none⟩
    ∧ (on_proc_error QExitStatus.CrashExit
        (edit T caret (TempOutcome.ok name) w0).w).err = none
    ∧ fsGet (on_proc_error QExitStatus.CrashExit
        (edit T caret (TempOutcome.ok name) w0).w).w.fs name = some T
    ∧ (on_proc_error QExitStatus.CrashExit
        (edit T caret (TempOutcome.ok name) w0).w).w.emitted = w0.emitted := by
  simp [edit, hw, on_proc_closed, on_proc_error, cleanup, fsGet_fsSet]

theorem crash_preserves_tempfile_witness :
    initWorld.filename = none
    ∧ fsGet (on_proc_error QExitStatus.CrashExit
        (edit ("hi".toList) 0 (TempOutcome.ok ("/tmp/c".toList)) initWorld).w).w.fs
        ("/tmp/c".toList) = some ("hi".toList) :=
  ⟨rfl,
    (crash_preserves_tempfile ("hi".toList) 0 ("/tmp/c".toList) initWorld 9 rfl).2.2.1⟩

/-! ### Claim C6: non-zero normal exit -/

/-- C6: after `edit T`, a normal termination with a non-zero exit code
raises nothing, performs no read-back and no emission, and the `finally`
cleanup still runs and deletes the session-owned temp file. -/
theorem nonzero_exit_no_emit_deletes (T : Str) (caret : Nat) (name : Str) (w0 : World)
    (ec : Int) (hw : w0.filename = none) (hec : ec ≠ 0) :
    (on_proc_closed ec QExitStatus.NormalExit
        (edit T caret (TempOutcome.ok name) w0).w).err = none
    ∧ (on_proc_closed ec QExitStatus.NormalExit
        (edit T caret (TempOutcome.ok name) w0).w).w.emitted = w0.emitted
    ∧ fsGet (on_proc_closed ec QExitStatus.NormalExit
        (edit T caret (TempOutcome.ok name) w0).w).w.fs name = none := by
  simp [edit, hw, on_proc_closed, hec, cleanup, fsGet_fsSet, fsGet_fsDel]

theorem nonzero_exit_no_emit_deletes_witness :
    initWorld.filename = none ∧ (1 : Int) ≠ 0
    ∧ fsGet (on_proc_closed 1 QExitStatus.NormalExit
        (edit ("hi".toList) 0 (TempOutcome.ok ("/tmp/n".toList)) initWorld).w).w.fs
        ("/tmp/n".toList) = none :=
  ⟨rfl, by decide,
    (nonzero_exit_no_emit_deletes ("hi".toList) 0 ("/tmp/n".toList) initWorld 1 rfl
      (by decide)).2.2⟩

/-! ### Claim C9: caller-supplied files are never deleted -/

/-- C9: for every filename passed to `edit_file` and every outcome of the
cycle (normal exit with any code, crash, or start error), the session
never touches the file on disk: `_remove_file` is `False` for the whole
cycle, and `_cleanup` deletes only session-owned files, so the filesystem
is unchanged by every callback. -/
theorem editfile_never_deletes (f : Str) (w0 : World) (ec : Int)
    (st st' : QExitStatus) :
    (edit_file f w0).err = none
    ∧ (edit_file f w0).w.filename = some f
    ∧ (edit_file f w0).w.remove_file = some false
    ∧ (on_proc_closed ec st (edit_file f w0).w).w.fs = w0.fs
    ∧ (on_proc_error st' (edit_file f w0).w).w.fs = w0.fs := by
  refine ⟨rfl, rfl, rfl, ?_, ?_⟩
  · cases st with
    | CrashExit => simp [on_proc_closed, edit_file]
    | NormalExit =>
      by_cases hec : ec = 0
      · subst hec
        cases hfs : fsGet w0.fs f with
        | none => simp [on_proc_closed, edit_file, cleanup, hfs]
        | some content => simp [on_proc_closed, edit_file, cleanup, hfs]
      · simp [on_proc_closed, hec, edit_file, cleanup]
  · simp [on_proc_error, edit_file, cleanup]

/-! ### Claim C7: temp-file failure -/

/-- C7 (amended): when the temp-file block of `edit` fails, the error is
reported to the user, no process is started and `_remove_file` is left
untouched, but the precise residue depends on the failure point: a
creation failure leaves the state and the disk exactly as they were (bar
the error report); a failure while writing leaves `_filename` unset but
the already-created temp file on disk (`delete=False`); a failure while
closing additionally leaves `_filename` set to the temp file's name. -/
theorem tempfile_failure_behavior (text : Str) (caret : Nat) (name : Str)
    (w0 : World) (hw : w0.filename = none) :
    (edit text caret TempOutcome.createFail w0
        = ⟨{ w0 with errors := w0.errors + 1 }, none⟩)
    ∧ ((edit text caret (TempOutcome.writeFail name) w0).err = none
      ∧ (edit text caret (TempOutcome.writeFail name) w0).w.filename = none
      ∧ (edit text caret (TempOutcome.writeFail name) w0).w.remove_file
          = w0.remove_file
      ∧ (edit text caret (TempOutcome.writeFail name) w0).w.procStarted
          = w0.procStarted
      ∧ (edit text caret (TempOutcome.writeFail name) w0).w.errors = w0.errors + 1
      ∧ fsGet (edit text caret (TempOutcome.writeFail name) w0).w.fs name = some [])
    ∧ ((edit text caret (TempOutcome.closeFail name) w0).err = none
      ∧ (edit text caret (TempOutcome.closeFail name) w0).w.filename = some name
      ∧ (edit text caret (TempOutcome.closeFail name) w0).w.procStarted
          = w0.procStarted
      ∧ (edit text caret (TempOutcome.closeFail name) w0).w.errors = w0.errors + 1
      ∧ fsGet (edit text caret (TempOutcome.closeFail name) w0).w.fs name
          = some []) := by
  simp [edit, hw, fsGet_fsSet]

theorem tempfile_failure_behavior_witness :
    initWorld.filename = none
    ∧ edit ("x".toList) 0 TempOutcome.createFail initWorld
        = ⟨{ initWorld with errors := initWorld.errors + 1 }, none⟩ :=
  ⟨rfl, (tempfile_failure_behavior ("x".toList) 0 ("/tmp/q2".toList) initWorld rfl).1⟩

/-- C7 counterexample: a failure while writing the initial temp file
(`writeFail`) aborts the cycle without raising and without starting a
process, yet the already-created temp file is still on disk, so the claim
that no dangling temp file remains is false. -/
theorem tempfile_failure_leaves_file_cex :
    initWorld.filename = none
    ∧ (edit ("x".toList) 0 (TempOutcome.writeFail ("/tmp/q".toList)) initWorld).err
        = none
    ∧ (edit ("x".toList) 0 (TempOutcome.writeFail ("/tmp/q".toList))
        initWorld).w.procStarted = false
    ∧ fsGet (edit ("x".toList) 0 (TempOutcome.writeFail ("/tmp/q".toList))
        initWorld).w.fs ("/tmp/q".toList) = some [] := by
  decide

/-! ### Claim C8: cleanup on a session that never created a file -/

/-- C8 (amended): when `_remove_file` has been set, `_cleanup` does
nothing at all — no exception, no filesystem access — if `_filename` is
unset or the session does not own the file; but when `_remove_file` was
never set (a fresh session, or a session whose `edit` aborted on a
temp-file error), `_cleanup` does not do nothing: its leading
`assert self._remove_file is not None` fails with `AssertionError`. -/
theorem cleanup_guard_behavior :
    (∀ (w : World) (st : QExitStatus), w.remove_file = none →
      cleanup w st = ⟨w, some PyError.assertionError⟩)
    ∧ (∀ (w : World) (st : QExitStatus) (b : Bool), w.remove_file = some b →
      w.filename = none → cleanup w st = ⟨w, none⟩)
    ∧ (∀ (w : World) (st : QExitStatus) (f : Str), w.remove_file = some false →
      w.filename = some f → cleanup w st = ⟨w, none⟩) := by
  refine ⟨fun w st h => ?_, fun w st b h hf => ?_, fun w st f h hf => ?_⟩
  · simp [cleanup, h]
  · simp [cleanup, h, hf]
  · simp [cleanup, h, hf]

theorem cleanup_guard_behavior_witness :
    initWorld.remove_file = none
    ∧ cleanup initWorld QExitStatus.CrashExit
        = ⟨initWorld, some PyError.assertionError⟩ :=
  ⟨rfl, cleanup_guard_behavior.1 initWorld QExitStatus.CrashExit rfl⟩

/-- C8 counterexample: on a fresh session (no file ever created,
`_remove_file` never set), invoking `_cleanup` does not "do nothing": it
fails the assertion `self._remove_file is not None`. -/
theorem cleanup_fresh_asserts_cex :
    initWorld.filename = none ∧ initWorld.remove_file = none
    ∧ cleanup initWorld QExitStatus.NormalExit
        = ⟨initWorld, some PyError.assertionError⟩ := by
  decide

/-! ### Foundation lemmas for `replaceAll` -/

theorem replaceAllF_congr (p r : Str) :
    ∀ (f₁ : Nat) (s : Str) (f₂ : Nat), s.length ≤ f₁ → s.length ≤ f₂ →
    replaceAllF f₁ p r s = replaceAllF f₂ p r s
  | 0, s, f₂, h₁, _ => by
    have hs : s = [] := List.length_eq_zero.mp (Nat.le_zero.mp h₁)
    subst hs
    cases f₂ <;> rfl
  | f + 1, s, f₂, h₁, h₂ => by
    cases s with
    | nil => cases f₂ <;> rfl
    | cons c t =>
      obtain ⟨g, rfl⟩ : ∃ g, f₂ = g + 1 :=
        ⟨f₂ - 1, by simp only [List.length_cons] at h₂; omega⟩
      simp only [replaceAllF]
      simp only [List.length_cons] at h₁ h₂
      have hd := List.length_drop (p.length - 1) t
      by_cases hcond : p ≠ [] ∧ p <+: (c :: t)
      · rw [if_pos hcond, if_pos hcond,
          replaceAllF_congr p r f (t.drop (p.length - 1)) g (by omega) (by omega)]
      · rw [if_neg hcond, if_neg hcond,
          replaceAllF_congr p r f t g (by omega) (by omega)]

theorem replaceAll_nil (p r : Str) : replaceAll p r [] = [] := rfl

/-- The one-step unfolding of `replaceAll` on a non-empty string. -/
theorem replaceAll_cons (p r : Str) (c : Char) (t : Str) :
    replaceAll p r (c :: t) =
      if p ≠ [] ∧ p <+: (c :: t) then
        r ++ replaceAll p r (t.drop (p.length - 1))
      else c :: replaceAll p r t := by
  show replaceAllF (t.length + 1) p r (c :: t) = _
  simp only [replaceAllF]
  have hd := List.length_drop (p.length - 1) t
  by_cases hcond : p ≠ [] ∧ p <+: (c :: t)
  · rw [if_pos hcond, if_pos hcond,
      replaceAllF_congr p r t.length (t.drop (p.length - 1))
        (t.drop (p.length - 1)).length (by omega) (le_refl _)]
    rfl
  · rw [if_neg hcond, if_neg hcond]
    rfl

/-- `replaceAll` with a pattern starting in `{` passes over text free of
opening braces. -/
theorem replaceAll_append_lit (q r a u : Str) (ha : ∀ c ∈ a, c ≠ lbrace) :
    replaceAll (lbrace :: q) r (a ++ u) = a ++ replaceAll (lbrace :: q) r u := by
  induction a with
  | nil => simp
  | cons c a' ih =>
    have hc : c ≠ lbrace := ha c (List.mem_cons_self c a')
    have hnp : ¬ (lbrace :: q ≠ [] ∧ lbrace :: q <+: (c :: (a' ++ u))) := by
      rintro ⟨-, hp⟩
      rw [List.cons_prefix_cons] at hp
      exact hc hp.1.symm
    rw [List.cons_append, replaceAll_cons, if_neg hnp,
      ih (fun x hx => ha x (List.mem_cons_of_mem c hx))]
    rfl

/-- `replaceAll` consumes the pattern when the string starts with it. -/
theorem replaceAll_head_match (p r u : Str) (hp : p ≠ []) :
    replaceAll p r (p ++ u) = r ++ replaceAll p r u := by
  cases p with
  | nil => exact absurd rfl hp
  | cons c q =>
    have hcond : c :: q ≠ [] ∧ c :: q <+: (c :: (q ++ u)) :=
      ⟨hp, List.prefix_append (c :: q) u⟩
    rw [List.cons_append, replaceAll_cons, if_pos hcond]
    have hl : (c :: q).length - 1 = q.length := by simp
    rw [hl, List.drop_left]

theorem not_prefix_append (a b u : Str) (h₁ : ¬ a <+: b) (h₂ : ¬ b <+: a) :
    ¬ a <+: (b ++ u) := by
  intro h
  rcases le_or_lt a.length b.length with hle | hlt
  · apply h₁
    have ha := List.prefix_iff_eq_take.mp h
    rw [List.take_append_of_le_length hle] at ha
    rw [ha]
    exact List.take_prefix _ _
  · apply h₂
    have ha := List.prefix_iff_eq_take.mp h
    have hb : a.take b.length = b := by
      rw [ha, List.take_take, min_eq_left (le_of_lt hlt),
        List.take_append_of_le_length (le_refl _), List.take_length]
    rw [← hb]
    exact List.take_prefix _ _

/-- A string with no occurrence of the pattern is returned unchanged,
like Python's `str.replace`. -/
theorem replaceAll_no_occurrence (p r s : Str) (h : ¬ p <:+: s) :
    replaceAll p r s = s := by
  induction s with
  | nil => rfl
  | cons c t ih =>
    have hnp : ¬ (p ≠ [] ∧ p <+: (c :: t)) := by
      rintro ⟨-, hpre⟩
      obtain ⟨t', ht⟩ := hpre
      exact h ⟨[], t', by simp [ht]⟩
    rw [replaceAll_cons, if_neg hnp, ih (fun hi => ?_)]
    obtain ⟨l, t', ht⟩ := hi
    exact h ⟨c :: l, t', by rw [← ht]; rfl⟩

/-! ### Facts about the six placeholder tokens -/

theorem tokenStr_ne_nil (i : Fin 6) : tokenStr i ≠ [] := by simp [tokenStr]

theorem token_mutual_no_pre : ∀ i j : Fin 6, i ≠ j → ¬ tokenStr i <+: tokenStr j := by
  decide

theorem token_tail_no_lbrace : ∀ j : Fin 6, ∀ c ∈ tokenBody j ++ [rbrace], c ≠ lbrace := by
  decide

/-- `replaceAll` for token `k` passes over an occurrence of a different
token `j` unchanged. -/
theorem replaceAll_token_pass (k j : Fin 6) (hne : j ≠ k) (r u : Str) :
    replaceAll (tokenStr k) r (tokenStr j ++ u)
      = tokenStr j ++ replaceAll (tokenStr k) r u := by
  have hnp : ¬ tokenStr k <+: (tokenStr j ++ u) :=
    not_prefix_append _ _ _ (token_mutual_no_pre k j (fun h => hne h.symm))
      (token_mutual_no_pre j k hne)
  show replaceAll (tokenStr k) r (lbrace :: ((tokenBody j ++ [rbrace]) ++ u))
      = tokenStr j ++ replaceAll (tokenStr k) r u
  rw [replaceAll_cons, if_neg (fun hand => hnp hand.2)]
  show lbrace :: replaceAll (tokenStr k) r ((tokenBody j ++ [rbrace]) ++ u)
      = lbrace :: ((tokenBody j ++ [rbrace]) ++ replaceAll (tokenStr k) r u)
  exact congrArg (lbrace :: ·)
    (replaceAll_append_lit (tokenBody k ++ [rbrace]) r (tokenBody j ++ [rbrace]) u
      (token_tail_no_lbrace j))

/-! ### Digit strings contain no opening brace -/

theorem natStrF_no_lbrace : ∀ (fuel n : Nat), lbrace ∉ natStrF fuel n
  | 0, _ => by simp [natStrF]
  | fuel + 1, n => by
    have hdig : ∀ m, m < 10 → Nat.digitChar m ≠ lbrace := by decide
    simp only [natStrF]
    by_cases h : n < 10
    · rw [if_pos h]
      simp [(hdig n h).symm]
    · rw [if_neg h]
      rw [List.mem_append]
      rintro (hm | hm)
      · exact natStrF_no_lbrace fuel (n / 10) hm
      · rw [List.mem_singleton] at hm
        exact (hdig (n % 10) (Nat.mod_lt n (by omega))) hm.symm

theorem intStr_no_lbrace (i : Int) : lbrace ∉ intStr i := by
  unfold intStr natStr
  by_cases h : i < 0
  · rw [if_pos h]
    rw [List.mem_cons]
    rintro (h' | h')
    · exact absurd h'.symm (by decide)
    · exact natStrF_no_lbrace _ _ h'
  · rw [if_neg h]
    exact natStrF_no_lbrace _ _

theorem vals_no_lbrace (fn : Str) (line col : Int) (hfn : lbrace ∉ fn) :
    ∀ i : Fin 6, lbrace ∉ vals fn line col i := by
  intro i
  fin_cases i
  · exact hfn
  · exact hfn
  · exact intStr_no_lbrace _
  · exact intStr_no_lbrace _
  · exact intStr_no_lbrace _
  · exact intStr_no_lbrace _

/-! ### Chunk-level substitution lemmas -/

/-- Replacing token `k` in the rendered template replaces exactly the
occurrences of that token's chunks. -/
theorem replaceAll_flatten (k : Fin 6) (v : Str) :
    ∀ cs : List Chunk, ChunksOK cs →
    replaceAll (tokenStr k) v (flatten cs) = flatten (substTok k v cs)
  | [], _ => rfl
  | .lit s :: cs, h => by
    have hs : lbrace ∉ s := h (Chunk.lit s) (List.mem_cons_self _ _)
    have hcs : ChunksOK cs := fun ch hm => h ch (List.mem_cons_of_mem _ hm)
    show replaceAll (tokenStr k) v (s ++ flatten cs)
        = s ++ flatten (substTok k v cs)
    have h1 : replaceAll (tokenStr k) v (s ++ flatten cs)
        = s ++ replaceAll (tokenStr k) v (flatten cs) :=
      replaceAll_append_lit (tokenBody k ++ [rbrace]) v s (flatten cs)
        (fun c hc he => hs (he ▸ hc))
    rw [h1]
    exact congrArg (s ++ ·) (replaceAll_flatten k v cs hcs)
  | .tok j :: cs, h => by
    have hcs : ChunksOK cs := fun ch hm => h ch (List.mem_cons_of_mem _ hm)
    by_cases hj : j = k
    · subst hj
      have h2 : substTok j v (Chunk.tok j :: cs) = Chunk.lit v :: substTok j v cs := by
        simp [substTok, substTokChunk]
      rw [h2]
      show replaceAll (tokenStr j) v (tokenStr j ++ flatten cs)
          = v ++ flatten (substTok j v cs)
      rw [replaceAll_head_match _ v _ (tokenStr_ne_nil j)]
      exact congrArg (v ++ ·) (replaceAll_flatten j v cs hcs)
    · have h2 : substTok k v (Chunk.tok j :: cs) = Chunk.tok j :: substTok k v cs := by
        simp [substTok, substTokChunk, hj]
      rw [h2]
      show replaceAll (tokenStr k) v (tokenStr j ++ flatten cs)
          = tokenStr j ++ flatten (substTok k v cs)
      rw [replaceAll_token_pass k j hj v]
      exact congrArg (tokenStr j ++ ·) (replaceAll_flatten k v cs hcs)

theorem ChunksOK_substTok (k : Fin 6) (v : Str) (hv : lbrace ∉ v)
    (cs : List Chunk) (h : ChunksOK cs) : ChunksOK (substTok k v cs) := by
  intro ch hm
  obtain ⟨ch', hch', heq⟩ := List.mem_map.mp hm
  cases ch' with
  | lit s =>
    rw [show substTokChunk k v (Chunk.lit s) = Chunk.lit s from rfl] at heq
    rw [← heq]
    exact h _ hch'
  | tok i =>
    simp only [substTokChunk] at heq
    by_cases hik : i = k
    · rw [if_pos hik] at heq
      rw [← heq]
      exact hv
    · rw [if_neg hik] at heq
      rw [← heq]
      trivial

/-- Substituting the placeholders of `order` one after the other on the
rendered template equals the chunk-level sequence of substitutions. -/
theorem subInOrder_flatten (fn : Str) (line col : Int) (hfn : lbrace ∉ fn) :
    ∀ (order : List (Fin 6)) (cs : List Chunk), ChunksOK cs →
    subInOrder fn line col order (flatten cs)
      = flatten (substSeq fn line col order cs)
  | [], _, _ => rfl
  | k :: order, cs, h => by
    show subInOrder fn line col order (applyTok fn line col (flatten cs) k)
        = flatten (substSeq fn line col order (substTok k (vals fn line col k) cs))
    rw [show applyTok fn line col (flatten cs) k
        = flatten (substTok k (vals fn line col k) cs)
      from replaceAll_flatten k _ cs h]
    exact subInOrder_flatten fn line col hfn order _
      (ChunksOK_substTok k _ (vals_no_lbrace fn line col hfn k) cs h)

theorem substSeq_eq_map (fn : Str) (line col : Int) :
    ∀ (order : List (Fin 6)) (cs : List Chunk),
    substSeq fn line col order cs = cs.map (chunkSeq fn line col order)
  | [], cs => by
    show cs = cs.map (fun ch => ch)
    rw [List.map_id']
  | k :: order, cs => by
    show substSeq fn line col order (substTok k (vals fn line col k) cs) = _
    rw [substSeq_eq_map fn line col order, substTok, List.map_map]
    congr 1

theorem chunkSeq_lit (fn : Str) (line col : Int) :
    ∀ (order : List (Fin 6)) (s : Str),
    chunkSeq fn line col order (Chunk.lit s) = Chunk.lit s
  | [], _ => rfl
  | _ :: order, s => chunkSeq_lit fn line col order s

theorem chunkSeq_tok (fn : Str) (line col : Int) :
    ∀ (order : List (Fin 6)) (i : Fin 6), i ∈ order →
    chunkSeq fn line col order (Chunk.tok i) = Chunk.lit (vals fn line col i)
  | [], i, h => absurd h (List.not_mem_nil i)
  | k :: order, i, h => by
    show chunkSeq fn line col order
        (substTokChunk k (vals fn line col k) (Chunk.tok i)) = _
    by_cases hik : i = k
    · subst hik
      rw [show substTokChunk i (vals fn line col i) (Chunk.tok i)
          = Chunk.lit (vals fn line col i) from by simp [substTokChunk]]
      exact chunkSeq_lit fn line col order _
    · rw [show substTokChunk k (vals fn line col k) (Chunk.tok i)
          = Chunk.tok i from by simp [substTokChunk, hik]]
      refine chunkSeq_tok fn line col order i ?_
      rcases List.mem_cons.mp h with h' | h'
      · exact absurd h' hik
      · exact h'

/-- Any substitution order that covers all six placeholders produces the
simultaneous substitution. -/
theorem substSeq_covers (fn : Str) (line col : Int) (order : List (Fin 6))
    (horder : ∀ i : Fin 6, i ∈ order) (cs : List Chunk) :
    substSeq fn line col order cs = substAll fn line col cs := by
  rw [substSeq_eq_map]
  unfold substAll
  congr 1
  funext ch
  cases ch with
  | lit s => exact chunkSeq_lit fn line col order s
  | tok i => exact chunkSeq_tok fn line col order i (horder i)

/-! ### Claim C3: placeholder substitution -/

/-- C3 (amended): `_sub_placeholder` is the chain of plain literal
replace-all operations on the six tokens in the source's fixed order; an
argument containing no occurrence of any of the six placeholders is
returned unchanged; the template `"{file}:{line}:{column}"` with filename
`/tmp/x`, line 4, column 9 yields `"/tmp/x:4:9"`; and substitution is
order-independent — any order covering the six distinct placeholders
yields the code's result — provided the filename contains no opening
brace and every opening brace of the argument begins a placeholder
occurrence (the argument renders a brace-disciplined chunk list). -/
theorem sub_placeholder_props :
    (∀ (fn : Str) (line col : Int) (cs : List Chunk) (order : List (Fin 6)),
      lbrace ∉ fn → ChunksOK cs → (∀ i : Fin 6, i ∈ order) →
      subInOrder fn line col order (flatten cs)
        = sub_placeholder fn (flatten cs) line col)
    ∧ (∀ (fn arg : Str) (line col : Int),
      (∀ i : Fin 6, ¬ tokenStr i <:+: arg) →
      sub_placeholder fn arg line col = arg)
    ∧ sub_placeholder ("/tmp/x".toList) exTemplate 4 9 = "/tmp/x:4:9".toList := by
  refine ⟨?_, ?_, by decide⟩
  · intro fn line col cs order hfn hcs horder
    have hsp : sub_placeholder fn (flatten cs) line col
        = subInOrder fn line col [0, 1, 2, 3, 4, 5] (flatten cs) := rfl
    rw [hsp, subInOrder_flatten fn line col hfn order cs hcs,
      subInOrder_flatten fn line col hfn [0, 1, 2, 3, 4, 5] cs hcs,
      substSeq_covers fn line col order horder cs,
      substSeq_covers fn line col [0, 1, 2, 3, 4, 5] (by decide) cs]
  · intro fn arg line col h
    unfold sub_placeholder
    rw [replaceAll_no_occurrence _ _ _ (h 0), replaceAll_no_occurrence _ _ _ (h 1),
      replaceAll_no_occurrence _ _ _ (h 2), replaceAll_no_occurrence _ _ _ (h 3),
      replaceAll_no_occurrence _ _ _ (h 4), replaceAll_no_occurrence _ _ _ (h 5)]

theorem sub_placeholder_props_witness :
    lbrace ∉ ("/tmp/x".toList : Str)
    ∧ ChunksOK exChunks
    ∧ (∀ i : Fin 6, i ∈ ([5, 4, 3, 2, 1, 0] : List (Fin 6)))
    ∧ subInOrder ("/tmp/x".toList) 4 9 [5, 4, 3, 2, 1, 0] (flatten exChunks)
        = sub_placeholder ("/tmp/x".toList) (flatten exChunks) 4 9
    ∧ (∀ i : Fin 6, ¬ tokenStr i <:+: ("plain".toList : Str))
    ∧ sub_placeholder ("/tmp/x".toList) ("plain".toList) 4 9 = "plain".toList :=
  ⟨by decide, by decide, by decide,
    sub_placeholder_props.1 ("/tmp/x".toList) 4 9 exChunks [5, 4, 3, 2, 1, 0]
      (by decide) (by decide) (by decide),
    by decide,
    sub_placeholder_props.2.1 ("/tmp/x".toList) ("plain".toList) 4 9 (by decide)⟩

/-- C3 counterexample: with filename `"{line}"` (itself a placeholder
token) and argument `"{}"`, replacing `{line}` before `{}` yields a
different result than the code's order, so the claim that the result is
independent of the order for every filename is false; the order used is a
permutation of the six distinct placeholders. -/
theorem sub_order_dependence_cex :
    ([2, 0, 1, 3, 4, 5] : List (Fin 6)).Perm [0, 1, 2, 3, 4, 5]
    ∧ subInOrder cexFn 4 9 [2, 0, 1, 3, 4, 5] cexArg
        ≠ subInOrder cexFn 4 9 [0, 1, 2, 3, 4, 5] cexArg
    ∧ sub_placeholder cexFn cexArg 4 9
        = subInOrder cexFn 4 9 [0, 1, 2, 3, 4, 5] cexArg := by
  refine ⟨by decide, by decide, rfl⟩

end EditorSpec
